import Mathlib

/-!
Verification of the suite25519 secure-messaging core (`src/suite25519.js`).

The repository's own functions — `deriveAesKey`, `eciesEncrypt`,
`eciesDecrypt`, the key classes and the six high-level operations — are
translated here definition by definition.  The external collaborators the
code imports (`@noble/curves` ed25519/x25519, `@noble/hashes`
hkdf/sha256/ripemd160, `@noble/ciphers` aes-siv, `cbor-x`, and the secure
random source) are not part of the repository; following the specification
(§1: "treated as external collaborators, specified only at their interface
boundary") each is modelled at that boundary, with a doc comment saying so.
Byte sequences are modelled as lists of natural numbers; the model keeps
every injectivity the real primitives provide computationally.
-/

namespace Suite25519

/-- Byte sequences: the universal payload representation (spec §3). -/
abbrev Bytes := List Nat

/-! ### An injective, linear-growth encoding of token lists into `Nat`

Used to give the modelled primitives (hash, MAC tag, KDF, signature)
injective outputs that still evaluate cheaply on concrete inputs. -/
/-- Base-9 digits of a natural number, little-endian, with structural fuel. -/
def toDigits9Go : Nat → Nat → List Nat
  | 0, _ => []
  | _ + 1, 0 => []
  | fuel + 1, n + 1 => (n + 1) % 9 :: toDigits9Go fuel ((n + 1) / 9)

/-- Base-9 digits of a natural number, little-endian. -/
def toDigits9 (n : Nat) : List Nat := toDigits9Go n n

/-- Value of a little-endian digit list in base 9. -/
def val9 (l : List Nat) : Nat := l.foldr (fun d acc => d + 9 * acc) 0

/-- Value of a little-endian digit list in base 10. -/
def val10 (l : List Nat) : Nat := l.foldr (fun d acc => d + 10 * acc) 0

/-- Digit stream of a token list: each token's base-9 digits followed by a
separator digit `9`. -/
def encDigits (l : List Nat) : List Nat :=
  l.foldr (fun a acc => toDigits9 a ++ 9 :: acc) []

/-- Injective encoding of a token list into a single natural number: its
digit stream read as a base-10 numeral.  Growth is linear in the total
digit count of the list. -/
def encodeList (l : List Nat) : Nat := val10 (encDigits l)

/-- A digit list is canonical when it does not end in `0` (so it is the
exact digit list of its value). -/
def canon : List Nat → Prop
  | [] => True
  | d :: t => canon t ∧ (t = [] → d ≠ 0)

/-! ### Lowercase-hex rendering (noble `bytesToHex`) -/
/-- The lowercase hexadecimal alphabet. -/
def hexDigitChars : List Char := "0123456789abcdef".data

/-- The lowercase hex character of a digit: code points 48–57 are the
decimal digits, 97–102 the letters. -/
def hexDigitChar (n : Nat) : Char :=
  if n < 10 then Char.ofNat (48 + n)
  else if n < 16 then Char.ofNat (87 + n)
  else Char.ofNat 102

/-- Numeric value of a lowercase hex character. -/
def hexCharVal (c : Char) : Nat :=
  if c.toNat ≤ 57 then c.toNat - 48 else c.toNat - 87

/-- Big-endian hex digits with structural fuel. -/
def hexDigitsGo : Nat → Nat → List Char
  | 0, _ => []
  | fuel + 1, n =>
    if n < 16 then [hexDigitChar n]
    else hexDigitsGo fuel (n / 16) ++ [hexDigitChar (n % 16)]

/-- Big-endian hex digits of a natural number. -/
def natToHexCore (n : Nat) : List Char := hexDigitsGo (n + 1) n

/-- Hex rendering of one token, padded to at least two digits as noble's
`bytesToHex` renders each byte. -/
def natToHex (n : Nat) : List Char :=
  if n < 16 then '0' :: natToHexCore n else natToHexCore n

/-- Value of a big-endian hex digit list. -/
def hexVal (l : List Char) : Nat :=
  l.foldl (fun acc c => acc * 16 + hexCharVal c) 0

/-! ### Modelled external primitives -/
/-- Modelled from the spec: the cryptographically secure random-byte
source (spec §1, §4.1 `generate`).  The one RNG side effect per operation
(spec §2) is made explicit: every call site passes the seed of its draw
and receives `len` tokens determined by that seed; distinct seeds give
byte strings differing already in their first token. -/
def randomBytes (len : Nat) (seed : Nat) : Bytes :=
  (List.range len).map (fun i => Nat.pair seed i)

/-- The scalar a key byte string denotes in the modelled curve arithmetic. -/
def bytesToNat (bs : Bytes) : Nat := encodeList bs

/-- Model-level Montgomery base point multiplier. -/
def xBase : Nat := 2

/-- Modelled from the spec: `x25519.utils.randomPrivateKey()` — a fresh
32-byte key-agreement private key from the secure random source. -/
def x25519RandomPrivateKey (seed : Nat) : Bytes := randomBytes 32 seed

/-- Modelled from the spec: x25519 public-key derivation — scalar
multiplication of the base point (§4.1 `publicKey`, agreement curve). -/
def x25519GetPublicKey (priv : Bytes) : Bytes := [xBase * bytesToNat priv]

/-- Modelled from the spec: x25519 Diffie–Hellman — scalar multiplication
of the peer's public point; commutative in the two secret scalars (§4.2
step 3). -/
def x25519GetSharedSecret (priv pub : Bytes) : Bytes :=
  [pub.headD 0 * bytesToNat priv]

/-- Modelled from the spec: `ed25519.getPublicKey` (§4.1 `publicKey`):
deterministic derivation; the Edwards encoding carries the same point as
the Montgomery form plus a second coordinate token. -/
def ed25519GetPublicKey (priv : Bytes) : Bytes := [xBase * bytesToNat priv, 0]

/-- Modelled from the spec: `edwardsToMontgomeryPub` (§4.1
`toAgreementPublic`): deterministic one-way conversion of an Edwards
public encoding to the Montgomery encoding of the same point. -/
def edwardsToMontgomeryPub (pubEd : Bytes) : Bytes := [pubEd.headD 0]

/-- Modelled from the spec: `edwardsToMontgomeryPriv` (§4.1
`toAgreementPrivate`): the agreement-curve scalar of a signing secret. -/
def edwardsToMontgomeryPriv (privEd : Bytes) : Bytes := privEd

/-- The unique valid signature for `msg` under `pub` in the idealised
signature model: 64 tokens determined by public key and message. -/
def expectedSig (pub msg : Bytes) : Bytes :=
  Nat.pair (encodeList pub) (encodeList msg) :: List.replicate 63 0

/-- Modelled from the spec: `ed25519.sign` — the 64-byte signature of the
message under the signing key (§3 Signature, §4.4 `sign`). -/
def ed25519Sign (msg priv : Bytes) : Bytes :=
  expectedSig (ed25519GetPublicKey priv) msg

/-- Modelled from the spec: `ed25519.verify` — the primitive may throw on
malformed input (the source catches this, see `PublicKey.verify`);
otherwise it reports whether the signature is valid for the message under
the public key. -/
def ed25519Verify (sigBytes msg pub : Bytes) : Except String Bool :=
  if sigBytes.length ≠ 64 then Except.error "invalid signature format"
  else Except.ok (decide (sigBytes = expectedSig pub msg))

/-- Salt token for the modelled KDF. -/
def encodeOpt : Option Bytes → Nat
  | none => 0
  | some bs => encodeList bs + 1

/-- Modelled from the spec: HKDF-SHA256 (§4.2 `deriveSymmetricKey`): a
keyed-derivation pass over the input key material with salt and context
info, injective in the key material, of the requested output length. -/
def hkdfSha256 (ikm : Bytes) (salt : Option Bytes) (info : Bytes) (len : Nat) : Bytes :=
  Nat.pair (encodeOpt salt) (Nat.pair (encodeList ikm) (encodeList info)) ::
    List.replicate (len - 1) 0

/-- Modelled from the spec: RIPEMD-160, the collision-resistant hash used
for key identifiers (§4.1 `id`), idealised as injective; fixed-width
20-byte digest. -/
def ripemd160 (bs : Bytes) : Bytes := encodeList bs :: List.replicate 19 0

/-- Modelled from the spec: noble `bytesToHex` — lowercase hexadecimal
rendering, two digits minimum per byte. -/
def bytesToHex (bs : Bytes) : String := String.mk (bs.map natToHex).flatten

/-- The AES-SIV authentication tag over key, nonce and message, idealised
as injective (the interface contract behind tamper detection, §4.2). -/
def sivTag (key nonce msg : Bytes) : Nat :=
  Nat.pair (encodeList key) (Nat.pair (encodeList nonce) (encodeList msg))

/-- Modelled from the spec: AES-SIV authenticated encryption
(`siv(aesKey, nonce).encrypt`): ciphertext and tag as a single byte
sequence, the tag block leading (§4.2 step 6). -/
def sivEncrypt (key nonce msg : Bytes) : Bytes := sivTag key nonce msg :: msg

/-- Modelled from the spec: AES-SIV authenticated decryption
(`siv(aesKey, nonce).decrypt`); `none` is the thrown authentication
failure of the primitive — it succeeds exactly on well-tagged input. -/
def sivDecrypt (key nonce ct : Bytes) : Option Bytes :=
  match ct with
  | [] => none
  | t :: m => if t = sivTag key nonce m then some m else none

/-! ### Envelope codec (cbor-x at the interface boundary)

Modelled from the spec (§4.3 Envelope Codec): the two wire records are
(de)serialised by a self-describing binary encoding that preserves field
absence (`an empty byte sequence is not equivalent to absence`), rejects
malformed records, and distinguishes the two record shapes. -/
/-- One optional record field on the wire: an absence marker, or a
presence marker with length and contents. -/
def encOptField : Option Bytes → Bytes
  | none => [0]
  | some bs => 1 :: bs.length :: bs

/-- Parse one optional record field, returning it and the rest. -/
def parseField : Bytes → Option (Option Bytes × Bytes)
  | 0 :: rest => some (none, rest)
  | 1 :: len :: rest =>
    if len ≤ rest.length then some (some (rest.take len), rest.drop len) else none
  | _ => none

/-- A three-field record on the wire, led by a record-shape tag. -/
def encodeRec3 (tag : Nat) (a b c : Option Bytes) : Bytes :=
  tag :: (encOptField a ++ (encOptField b ++ encOptField c))

/-- Decode a three-field record, checking the record-shape tag and
rejecting trailing bytes. -/
def decodeRec3 (tag : Nat) (bs : Bytes) :
    Option (Option Bytes × Option Bytes × Option Bytes) :=
  match bs with
  | [] => none
  | t :: rest =>
    if t = tag then
      match parseField rest with
      | none => none
      | some (a, r1) =>
        match parseField r1 with
        | none => none
        | some (b, r2) =>
          match parseField r2 with
          | none => none
          | some (c, r3) => if r3 = [] then some (a, b, c) else none
    else none

/-- The signed-message envelope record `{sig, m?, P?}` (spec §3
SignedEnvelope); in the source an optional field is simply absent from the
decoded CBOR object. -/
structure SignedPayload where
  sig : Option Bytes
  m : Option Bytes
  P : Option Bytes

/-- The ECIES envelope record `{C, P_e, N}` (spec §3 EciesEnvelope): all
three fields always present. -/
structure EciesPayload where
  C : Bytes
  P_e : Bytes
  N : Bytes

/-- cbor-x `encode` applied to the signed-message record. -/
def encodeSignedPayload (p : SignedPayload) : Bytes := encodeRec3 0 p.sig p.m p.P

/-- cbor-x `decode` of a signed-message record. -/
def decodeSignedPayload (bs : Bytes) : Option SignedPayload :=
  match decodeRec3 0 bs with
  | none => none
  | some (a, b, c) => some ⟨a, b, c⟩

/-- cbor-x `encode` applied to the ECIES record `{C, P_e, N}`. -/
def encodeEciesPayload (e : EciesPayload) : Bytes :=
  encodeRec3 1 (some e.C) (some e.P_e) (some e.N)

/-- cbor-x `decode` of an ECIES record, before the `instanceof`
validation in `decryptMessage`: each component may be absent. -/
def decodeEciesWire (bs : Bytes) :
    Option (Option Bytes × Option Bytes × Option Bytes) :=
  decodeRec3 1 bs

/-! ### Key model (source classes `PrivateKey`, `PublicKey`)

The JS classes wrap a `Uint8Array` in `this.data`; here a key is that byte
string and each method becomes a function on it.  The `assertType` guards
of the source are enforced by the Lean types themselves. -/
/-- Source: `PrivateKey.get publicKey` — `ed25519.getPublicKey(this.data)`. -/
def PrivateKey.publicKey (priv : Bytes) : Bytes := ed25519GetPublicKey priv

/-- Source: `PublicKey.get id` — `bytesToHex(ripemd160(this.data))`. -/
def PublicKey.id (pub : Bytes) : String := bytesToHex (ripemd160 pub)

/-- Source: `PublicKey.verify(messageData, signature)` — calls
`ed25519.verify` under a try/catch; a thrown verification error is logged
with `console.error` and treated as an invalid signature (`return
false`), and an invalid signature returns `false`. -/
def PublicKey.verify (pub msg sigBytes : Bytes) : Bool :=
  match ed25519Verify sigBytes msg pub with
  | Except.ok b => b
  | Except.error _ => false

/-! ### ECIES core (source `deriveAesKey`, `eciesEncrypt`, `eciesDecrypt`) -/
/-- Source: the `info` constant of `deriveAesKey` — the UTF-8 bytes of
`"suite25519-aes-key"`. -/
def aesKeyInfo : Bytes := "suite25519-aes-key".data.map Char.toNat

/-- Source: `deriveAesKey(sharedSecret)` — HKDF-SHA256 over the raw
shared secret, no salt (`undefined`), the fixed info label, 32 bytes. -/
def deriveAesKey (sharedSecret : Bytes) : Bytes :=
  hkdfSha256 sharedSecret none aesKeyInfo 32

/-- Source: `eciesEncrypt(receiverPublicKeyEd, messageUint8Array)`.  The
two RNG draws — `x25519.utils.randomPrivateKey()` and `randomBytes(12)` —
are made explicit through the per-call `seed`. -/
def eciesEncrypt (receiverPublicKeyEd messageBytes : Bytes) (seed : Nat) :
    EciesPayload :=
  let receiverPublicKeyX := edwardsToMontgomeryPub receiverPublicKeyEd
  let ephemeralPrivateKeyX := x25519RandomPrivateKey (Nat.pair seed 0)
  let ephemeralPublicKeyX := x25519GetPublicKey ephemeralPrivateKeyX
  let sharedSecret := x25519GetSharedSecret ephemeralPrivateKeyX receiverPublicKeyX
  let aesKey := deriveAesKey sharedSecret
  let nonce := randomBytes 12 (Nat.pair seed 1)
  { C := sivEncrypt aesKey nonce messageBytes
    P_e := ephemeralPublicKeyX
    N := nonce }

/-- The single authentication-failure error `eciesDecrypt` surfaces: the
inner catch throws `Decryption failed (authentication tag mismatch or
other error)`, and the outer catch rewraps it with the `eciesDecrypt
failed: ` prefix.  One constant for tampering, wrong key and corrupted
nonce alike. -/
def authFailureMsg : String :=
  "eciesDecrypt failed: Decryption failed (authentication tag mismatch or other error)"

/-- Source: `eciesDecrypt(receiverPrivateKeyEd, ephemeralPublicKeyX,
nonce, ciphertext)` — rebuild the shared secret from the recipient's
agreement-curve private key and the envelope's ephemeral public key,
derive the AES key, AES-SIV-decrypt; any thrown decryption failure is
surfaced as the one wrapped authentication error. -/
def eciesDecrypt (receiverPrivateKeyEd ephemeralPublicKeyX nonce ciphertext : Bytes) :
    Except String Bytes :=
  let receiverPrivateKeyX := edwardsToMontgomeryPriv receiverPrivateKeyEd
  let sharedSecret := x25519GetSharedSecret receiverPrivateKeyX ephemeralPublicKeyX
  let aesKey := deriveAesKey sharedSecret
  match sivDecrypt aesKey nonce ciphertext with
  | some plaintext => Except.ok plaintext
  | none => Except.error authFailureMsg

/-! ### High-level API (the six public operations, spec §4.4) -/
/-- Source: `signMessage(plainMessage, signingPrivateKey, includeMessage,
includeSenderPublicKey)` — sign the message's canonical bytes; `sig` is
always present, `m` and `P` per the flags; CBOR-encode the record. -/
def signMessage (plainMessage signingPrivateKey : Bytes)
    (includeMessage includeSenderPublicKey : Bool) : Bytes :=
  let messageBinary := plainMessage
  let sg := ed25519Sign messageBinary signingPrivateKey
  encodeSignedPayload
    { sig := some sg
      m := if includeMessage then some messageBinary else none
      P := if includeSenderPublicKey then some (PrivateKey.publicKey signingPrivateKey)
           else none }

/-- The source's default flags (`includeMessage = false`,
`includeSenderPublicKey = false`): the two-argument call
`signMessage(m, priv)`. -/
def signMessageDefaults (plainMessage signingPrivateKey : Bytes) : Bytes :=
  signMessage plainMessage signingPrivateKey false false

/-- Stands for the exception thrown by cbor-x `decode` on a payload that
does not parse as a record. -/
def decodeFailureMsg : String := "verifyMessage failed: malformed CBOR payload"

/-- Source: `'Invalid signed payload: Missing or invalid signature.'` -/
def missingSigMsg : String := "Invalid signed payload: Missing or invalid signature."

/-- Source: the key-mismatch rejection of `verifyMessage`. -/
def keyMismatchMsg : String :=
  "Verification failed: Included public key 'P' does not match expected senderPublicKey."

/-- Source: the missing-message rejection of `verifyMessage`. -/
def missingMessageMsg : String :=
  "Verification failed: Message 'm' not included in the signed payload."

/-- Source: `'Verification failed: Invalid signature.'` -/
def invalidSignatureMsg : String := "Verification failed: Invalid signature."

/-- Source: `verifyMessage(signedPayload, senderPublicKey)` — decode the
CBOR record; reject a missing signature; if `P` is present (the JS
truthiness test — an empty present key is still checked) its KeyId must
equal the expected key's KeyId, else the key-mismatch error; `m` must be
present, else the missing-message error; finally the signature is checked
over `m` with the caller's expected key, returning `m` on success and the
invalid-signature error on failure. -/
def verifyMessage (signedPayload senderPublicKey : Bytes) : Except String Bytes :=
  match decodeSignedPayload signedPayload with
  | none => Except.error decodeFailureMsg
  | some decoded =>
    match decoded.sig with
    | none => Except.error missingSigMsg
    | some sg =>
      if (match decoded.P with
          | some P => decide (PublicKey.id P ≠ PublicKey.id senderPublicKey)
          | none => false) then
        Except.error keyMismatchMsg
      else
        match decoded.m with
        | none => Except.error missingMessageMsg
        | some m =>
          if PublicKey.verify senderPublicKey m sg then Except.ok m
          else Except.error invalidSignatureMsg

/-- Source: `encryptMessage(plainMessage, recipientPublicKey)` — ECIES
encryption, then CBOR-encode `{C, P_e, N}`. -/
def encryptMessage (plainMessage recipientPublicKey : Bytes) (seed : Nat) : Bytes :=
  encodeEciesPayload (eciesEncrypt recipientPublicKey plainMessage seed)

/-- Source: `'Invalid encrypted payload structure after CBOR decoding.'`;
also stands for the cbor-x decode exception on unparseable input. -/
def invalidEciesMsg : String := "Invalid encrypted payload structure after CBOR decoding."

/-- Source: `decryptMessage(encryptedPayload, recipientPrivateKey)` —
decode the CBOR record, validate that the three components are present
byte strings (`instanceof Uint8Array`), delegate to `eciesDecrypt`;
errors propagate uncaught. -/
def decryptMessage (encryptedPayload recipientPrivateKey : Bytes) : Except String Bytes :=
  match decodeEciesWire encryptedPayload with
  | none => Except.error invalidEciesMsg
  | some (optC, optPe, optN) =>
    match optC, optPe, optN with
    | some c, some pe, some n => eciesDecrypt recipientPrivateKey pe n c
    | _, _, _ => Except.error invalidEciesMsg

/-- Source: `signAndEncryptMessage(plainMessage, signingPrivateKey,
recipientPublicKey, includeSenderPublicKey)` — sign with `includeMessage
= true` and the given flag, then encrypt the whole signed payload. -/
def signAndEncryptMessage (plainMessage signingPrivateKey recipientPublicKey : Bytes)
    (includeSenderPublicKey : Bool) (seed : Nat) : Bytes :=
  let signedPayload := signMessage plainMessage signingPrivateKey true includeSenderPublicKey
  encryptMessage signedPayload recipientPublicKey seed

/-- The source's default `includeSenderPublicKey = true`: the
three-argument call `signAndEncryptMessage(m, priv, pub)`. -/
def signAndEncryptMessageDefaults
    (plainMessage signingPrivateKey recipientPublicKey : Bytes) (seed : Nat) : Bytes :=
  signAndEncryptMessage plainMessage signingPrivateKey recipientPublicKey true seed

/-- Source: `decryptAndVerifyMessage(encryptedSignedPayload,
recipientPrivateKey, senderPublicKey)` — decrypt the outer payload, then
verify the inner signed payload; failure at either stage propagates. -/
def decryptAndVerifyMessage
    (encryptedSignedPayload recipientPrivateKey senderPublicKey : Bytes) :
    Except String Bytes :=
  match decryptMessage encryptedSignedPayload recipientPrivateKey with
  | Except.error e => Except.error e
  | Except.ok signedPayload => verifyMessage signedPayload senderPublicKey

/-! ### Tampering: flipping one bit of a byte -/
/-- `bs` with bit `j` of byte `i` flipped. -/
def flipBit (bs : Bytes) (i j : Nat) : Bytes :=
  bs.set i (bs.getD i 0 ^^^ 2 ^ j)

/-! ### The encryption-side components of one `eciesEncrypt` call -/
/-- The ephemeral agreement private key drawn inside `eciesEncrypt`. -/
def ephPrivOf (seed : Nat) : Bytes := x25519RandomPrivateKey (Nat.pair seed 0)

/-- The nonce drawn inside `eciesEncrypt`. -/
def nonceOf (seed : Nat) : Bytes := randomBytes 12 (Nat.pair seed 1)

/-- The AES key `eciesEncrypt` derives for a recipient public key. -/
def encKeyOf (pubEd : Bytes) (seed : Nat) : Bytes :=
  deriveAesKey (x25519GetSharedSecret (ephPrivOf seed) (edwardsToMontgomeryPub pubEd))

theorem toDigits9Go_lt (fuel n : Nat) : ∀ d ∈ toDigits9Go fuel n, d < 9 := by
  induction fuel generalizing n with
  | zero => intro d hd; simp [toDigits9Go] at hd
  | succ fuel ih =>
    intro d hd
    cases n with
    | zero => simp [toDigits9Go] at hd
    | succ m =>
      simp only [toDigits9Go, List.mem_cons] at hd
      rcases hd with h | h
      · subst h; exact Nat.mod_lt _ (by omega)
      · exact ih _ d h

theorem val9_toDigits9Go (fuel n : Nat) (h : n ≤ fuel) :
    val9 (toDigits9Go fuel n) = n := by
  induction fuel generalizing n with
  | zero => interval_cases n; simp [toDigits9Go, val9]
  | succ fuel ih =>
    cases n with
    | zero => simp [toDigits9Go, val9]
    | succ m =>
      have hdiv : (m + 1) / 9 ≤ fuel := by
        have : (m + 1) / 9 < m + 1 := Nat.div_lt_self (by omega) (by omega)
        omega
      simp only [toDigits9Go, val9, List.foldr_cons]
      have := ih ((m + 1) / 9) hdiv
      simp only [val9] at this
      rw [this, Nat.mod_add_div]

theorem val9_toDigits9 (n : Nat) : val9 (toDigits9 n) = n :=
  val9_toDigits9Go n n (Nat.le_refl n)

theorem toDigits9_injective : Function.Injective toDigits9 := by
  intro a b h
  have := val9_toDigits9 a
  rw [h, val9_toDigits9 b] at this
  exact this.symm

theorem toDigits9_lt (n : Nat) : ∀ d ∈ toDigits9 n, d < 9 :=
  toDigits9Go_lt n n

theorem nine_not_mem_toDigits9 (n : Nat) : 9 ∉ toDigits9 n := by
  intro h
  exact absurd (toDigits9_lt n 9 h) (by omega)

theorem canon_append (xs ys : List Nat) (hys : canon ys) (hne : ys ≠ []) :
    canon (xs ++ ys) := by
  induction xs with
  | nil => simpa using hys
  | cons x xs ih =>
    refine ⟨ih, ?_⟩
    intro hnil
    rcases List.append_eq_nil.mp hnil with ⟨_, h2⟩
    exact absurd h2 hne

theorem encDigits_nil : encDigits [] = [] := rfl

theorem encDigits_cons (a : Nat) (t : List Nat) :
    encDigits (a :: t) = toDigits9 a ++ 9 :: encDigits t := rfl

theorem canon_encDigits (l : List Nat) : canon (encDigits l) := by
  induction l with
  | nil => trivial
  | cons a t ih =>
    rw [encDigits_cons]
    exact canon_append _ _ ⟨ih, fun _ => by omega⟩ (by simp)

theorem encDigits_lt (l : List Nat) : ∀ d ∈ encDigits l, d < 10 := by
  induction l with
  | nil => intro d hd; simp [encDigits_nil] at hd
  | cons a t ih =>
    intro d hd
    rw [encDigits_cons] at hd
    rcases List.mem_append.mp hd with h | h
    · exact Nat.lt_succ_of_lt (toDigits9_lt a d h)
    · rcases List.mem_cons.mp h with h | h
      · omega
      · exact ih d h

theorem val10_eq_zero (l : List Nat) (hc : canon l) (hz : val10 l = 0) :
    l = [] := by
  induction l with
  | nil => rfl
  | cons d t ih =>
    simp only [val10, List.foldr_cons] at hz
    have hd : d = 0 := by omega
    have ht : val10 t = 0 := by
      simp only [val10]; omega
    have := ih hc.1 ht
    subst this
    exact absurd hd (hc.2 rfl)

theorem val10_canon_inj (l₁ : List Nat) :
    ∀ l₂, canon l₁ → canon l₂ → (∀ d ∈ l₁, d < 10) → (∀ d ∈ l₂, d < 10) →
    val10 l₁ = val10 l₂ → l₁ = l₂ := by
  induction l₁ with
  | nil =>
    intro l₂ _ hc₂ _ _ hv
    exact (val10_eq_zero l₂ hc₂ (by simpa [val10] using hv.symm)).symm
  | cons d₁ t₁ ih =>
    intro l₂ hc₁ hc₂ hlt₁ hlt₂ hv
    cases l₂ with
    | nil =>
      exact absurd (val10_eq_zero _ hc₁ (by simpa [val10] using hv)) (by simp)
    | cons d₂ t₂ =>
      simp only [val10, List.foldr_cons] at hv
      have hd₁ : d₁ < 10 := hlt₁ d₁ (by simp)
      have hd₂ : d₂ < 10 := hlt₂ d₂ (by simp)
      have hdd : d₁ = d₂ := by omega
      have htt : val10 t₁ = val10 t₂ := by
        simp only [val10]; omega
      have := ih t₂ hc₁.1 hc₂.1
        (fun d hd => hlt₁ d (List.mem_cons_of_mem _ hd))
        (fun d hd => hlt₂ d (List.mem_cons_of_mem _ hd)) htt
      rw [hdd, this]

theorem sep_split (xs : List Nat) :
    ∀ ys u v, 9 ∉ xs → 9 ∉ ys → xs ++ 9 :: u = ys ++ 9 :: v →
    xs = ys ∧ u = v := by
  induction xs with
  | nil =>
    intro ys u v _ hys h
    cases ys with
    | nil => simpa using h
    | cons y ys' =>
      simp only [List.nil_append, List.cons_append, List.cons.injEq] at h
      exact absurd (h.1.symm ▸ List.mem_cons_self y ys') hys
  | cons x xs ih =>
    intro ys u v hxs hys h
    cases ys with
    | nil =>
      simp only [List.cons_append, List.nil_append, List.cons.injEq] at h
      exact absurd (h.1 ▸ List.mem_cons_self x xs) hxs
    | cons y ys' =>
      simp only [List.cons_append, List.cons.injEq] at h
      have hxs' : 9 ∉ xs := fun hm => hxs (List.mem_cons_of_mem _ hm)
      have hys' : 9 ∉ ys' := fun hm => hys (List.mem_cons_of_mem _ hm)
      obtain ⟨h1, h2⟩ := ih ys' u v hxs' hys' h.2
      exact ⟨by rw [h.1, h1], h2⟩

theorem encDigits_injective : Function.Injective encDigits := by
  intro l₁ l₂
  induction l₁ generalizing l₂ with
  | nil =>
    intro h
    cases l₂ with
    | nil => rfl
    | cons b t₂ =>
      rw [encDigits_nil, encDigits_cons] at h
      exact absurd h.symm (by simp)
  | cons a t₁ ih =>
    intro h
    cases l₂ with
    | nil =>
      rw [encDigits_nil, encDigits_cons] at h
      exact absurd h (by simp)
    | cons b t₂ =>
      rw [encDigits_cons, encDigits_cons] at h
      obtain ⟨h1, h2⟩ :=
        sep_split _ _ _ _ (nine_not_mem_toDigits9 a) (nine_not_mem_toDigits9 b) h
      rw [toDigits9_injective h1, ih h2]

theorem encodeList_injective : Function.Injective encodeList := by
  intro l₁ l₂ h
  exact encDigits_injective
    (val10_canon_inj _ _ (canon_encDigits l₁) (canon_encDigits l₂)
      (encDigits_lt l₁) (encDigits_lt l₂) h)

theorem encodeList_nil : encodeList [] = 0 := rfl

theorem encodeList_pos (l : List Nat) (h : l ≠ []) : 0 < encodeList l := by
  rcases Nat.eq_zero_or_pos (encodeList l) with h0 | h0
  · have : encodeList l = encodeList [] := by rw [h0, encodeList_nil]
    exact absurd (encodeList_injective this) h
  · exact h0

theorem hexCharVal_hexDigitChar : ∀ d, d < 16 → hexCharVal (hexDigitChar d) = d := by
  decide

theorem hexDigitChar_mem (n : Nat) : hexDigitChar n ∈ hexDigitChars := by
  by_cases h : n < 16
  · interval_cases n <;> decide
  · rw [hexDigitChar, if_neg (by omega), if_neg h]
    decide

theorem hexVal_append_singleton (l : List Char) (c : Char) :
    hexVal (l ++ [c]) = hexVal l * 16 + hexCharVal c := by
  simp [hexVal, List.foldl_append]

theorem hexVal_hexDigitsGo (fuel : Nat) :
    ∀ n, n < 16 ^ fuel → hexVal (hexDigitsGo fuel n) = n := by
  induction fuel with
  | zero => intro n hn; interval_cases n; simp [hexDigitsGo, hexVal]
  | succ fuel ih =>
    intro n hn
    by_cases h : n < 16
    · simp only [hexDigitsGo, if_pos h, hexVal, List.foldl_cons, List.foldl_nil,
        Nat.zero_mul, Nat.zero_add]
      exact hexCharVal_hexDigitChar n h
    · have hdiv : n / 16 < 16 ^ fuel := by
        rw [Nat.div_lt_iff_lt_mul (by omega)]
        calc n < 16 ^ (fuel + 1) := hn
        _ = 16 ^ fuel * 16 := by ring
      rw [hexDigitsGo, if_neg h, hexVal_append_singleton, ih _ hdiv,
        hexCharVal_hexDigitChar _ (Nat.mod_lt _ (by omega))]
      omega

theorem hexVal_natToHexCore (n : Nat) : hexVal (natToHexCore n) = n := by
  have hlt : n < 16 ^ (n + 1) := by
    calc n < 2 ^ n := Nat.lt_two_pow n
    _ ≤ 16 ^ n := Nat.pow_le_pow_left (by omega) n
    _ ≤ 16 ^ (n + 1) := Nat.pow_le_pow_right (by omega) (by omega)
  exact hexVal_hexDigitsGo (n + 1) n hlt

theorem hexVal_natToHex (n : Nat) : hexVal (natToHex n) = n := by
  unfold natToHex
  by_cases h : n < 16
  · rw [if_pos h]
    have : hexVal ('0' :: natToHexCore n) = hexVal (natToHexCore n) := by
      simp [hexVal, hexCharVal]
    rw [this, hexVal_natToHexCore]
  · rw [if_neg h, hexVal_natToHexCore]

theorem natToHex_injective : Function.Injective natToHex := by
  intro a b h
  have := hexVal_natToHex a
  rw [h, hexVal_natToHex b] at this
  exact this.symm

theorem hexDigitsGo_subset (fuel : Nat) :
    ∀ n c, c ∈ hexDigitsGo fuel n → c ∈ hexDigitChars := by
  induction fuel with
  | zero => intro n c hc; simp [hexDigitsGo] at hc
  | succ fuel ih =>
    intro n c hc
    by_cases h : n < 16
    · rw [hexDigitsGo, if_pos h, List.mem_singleton] at hc
      exact hc ▸ hexDigitChar_mem n
    · rw [hexDigitsGo, if_neg h, List.mem_append] at hc
      rcases hc with hc | hc
      · exact ih _ c hc
      · rw [List.mem_singleton] at hc
        exact hc ▸ hexDigitChar_mem _

theorem natToHex_subset (n : Nat) : ∀ c ∈ natToHex n, c ∈ hexDigitChars := by
  intro c hc
  unfold natToHex at hc
  by_cases h : n < 16
  · rw [if_pos h, List.mem_cons] at hc
    rcases hc with hc | hc
    · subst hc; decide
    · exact hexDigitsGo_subset _ _ c hc
  · rw [if_neg h] at hc
    exact hexDigitsGo_subset _ _ c hc

theorem randomBytes_length (len seed : Nat) : (randomBytes len seed).length = len := by
  simp [randomBytes]

theorem randomBytes_ne (len seed seed' : Nat) (hlen : 0 < len) (h : seed ≠ seed') :
    randomBytes len seed ≠ randomBytes len seed' := by
  unfold randomBytes
  cases len with
  | zero => omega
  | succ k =>
    intro hEq
    rw [List.range_succ_eq_map] at hEq
    simp only [List.map_cons, List.map_map, List.cons.injEq] at hEq
    exact h ((Nat.pair_eq_pair.mp hEq.1).1)

theorem bytesToNat_injective : Function.Injective bytesToNat :=
  encodeList_injective

theorem ed25519GetPublicKey_injective : Function.Injective ed25519GetPublicKey := by
  intro a b h
  simp only [ed25519GetPublicKey, xBase, List.cons.injEq, and_true] at h
  exact bytesToNat_injective (by omega)

/-- The agreement between the two Diffie–Hellman directions used by
`eciesEncrypt` and `eciesDecrypt`. -/
theorem sharedSecret_agree (privEd eph : Bytes) :
    x25519GetSharedSecret (edwardsToMontgomeryPriv privEd) (x25519GetPublicKey eph) =
      x25519GetSharedSecret eph (edwardsToMontgomeryPub (ed25519GetPublicKey privEd)) := by
  simp only [x25519GetSharedSecret, edwardsToMontgomeryPriv, x25519GetPublicKey,
    edwardsToMontgomeryPub, ed25519GetPublicKey, List.headD_cons, List.cons.injEq, and_true]
  ring

theorem expectedSig_length (pub msg : Bytes) : (expectedSig pub msg).length = 64 := by
  simp [expectedSig]

theorem expectedSig_inj (pub msg pub' msg' : Bytes) :
    expectedSig pub msg = expectedSig pub' msg' → pub = pub' ∧ msg = msg' := by
  intro h
  simp only [expectedSig, List.cons.injEq, and_true] at h
  obtain ⟨h1, h2⟩ := Nat.pair_eq_pair.mp h
  exact ⟨encodeList_injective h1, encodeList_injective h2⟩

theorem hkdfSha256_length (ikm : Bytes) (salt : Option Bytes) (info : Bytes)
    (len : Nat) (h : 0 < len) : (hkdfSha256 ikm salt info len).length = len := by
  simp only [hkdfSha256, List.length_cons, List.length_replicate]
  omega

theorem hkdfSha256_inj_ikm (ikm ikm' : Bytes) (salt : Option Bytes) (info : Bytes)
    (len : Nat) (h : hkdfSha256 ikm salt info len = hkdfSha256 ikm' salt info len) :
    ikm = ikm' := by
  simp only [hkdfSha256, List.cons.injEq, and_true] at h
  exact encodeList_injective (Nat.pair_eq_pair.mp (Nat.pair_eq_pair.mp h).2).1

theorem ripemd160_length (bs : Bytes) : (ripemd160 bs).length = 20 := by
  simp [ripemd160]

theorem ripemd160_injective : Function.Injective ripemd160 := by
  intro a b h
  simp only [ripemd160, List.cons.injEq, and_true] at h
  exact encodeList_injective h

theorem sivTag_inj (key nonce msg key' nonce' msg' : Bytes) :
    sivTag key nonce msg = sivTag key' nonce' msg' →
    key = key' ∧ nonce = nonce' ∧ msg = msg' := by
  intro h
  obtain ⟨h1, h2⟩ := Nat.pair_eq_pair.mp h
  obtain ⟨h3, h4⟩ := Nat.pair_eq_pair.mp h2
  exact ⟨encodeList_injective h1, encodeList_injective h3, encodeList_injective h4⟩

theorem sivDecrypt_sivEncrypt (key nonce msg : Bytes) :
    sivDecrypt key nonce (sivEncrypt key nonce msg) = some msg := by
  simp [sivDecrypt, sivEncrypt]

theorem parseField_encOptField (f : Option Bytes) (rest : Bytes) :
    parseField (encOptField f ++ rest) = some (f, rest) := by
  cases f with
  | none => rfl
  | some bs =>
    simp only [encOptField, List.cons_append, parseField]
    rw [if_pos (by simp)]
    rw [List.take_left, List.drop_left]

theorem decodeRec3_encodeRec3 (tag : Nat) (a b c : Option Bytes) :
    decodeRec3 tag (encodeRec3 tag a b c) = some (a, b, c) := by
  simp only [encodeRec3, decodeRec3, if_pos rfl]
  rw [parseField_encOptField]
  simp only
  rw [parseField_encOptField]
  simp only
  rw [show encOptField c = encOptField c ++ [] by simp, parseField_encOptField]
  simp

theorem decodeSignedPayload_encode (p : SignedPayload) :
    decodeSignedPayload (encodeSignedPayload p) = some p := by
  simp [decodeSignedPayload, encodeSignedPayload, decodeRec3_encodeRec3]

theorem decodeEciesWire_encode (e : EciesPayload) :
    decodeEciesWire (encodeEciesPayload e) = some (some e.C, some e.P_e, some e.N) := by
  simp [decodeEciesWire, encodeEciesPayload, decodeRec3_encodeRec3]

/-! ### Round-trip helper lemmas -/
theorem decryptMessage_encryptMessage (m priv : Bytes) (seed : Nat) :
    decryptMessage (encryptMessage m (PrivateKey.publicKey priv) seed) priv =
      Except.ok m := by
  unfold decryptMessage encryptMessage
  rw [decodeEciesWire_encode]
  show eciesDecrypt priv _ _ _ = _
  simp only [eciesEncrypt, eciesDecrypt, PrivateKey.publicKey]
  rw [sharedSecret_agree, sivDecrypt_sivEncrypt]

theorem verifyMessage_signMessage (m priv : Bytes) (flagP : Bool) :
    verifyMessage (signMessage m priv true flagP) (PrivateKey.publicKey priv) =
      Except.ok m := by
  unfold verifyMessage signMessage
  rw [decodeSignedPayload_encode]
  have hver : PublicKey.verify (PrivateKey.publicKey priv) m (ed25519Sign m priv) = true := by
    simp [PublicKey.verify, ed25519Verify, expectedSig_length, ed25519Sign,
      PrivateKey.publicKey]
  cases flagP with
  | false => simp [hver]
  | true => simp [hver]

/-! ### Claim theorems -/
/-- **C2**: For every message `m` and every key pair `(priv, pub)` with
`pub` derived from `priv`, `decryptMessage (encryptMessage m pub) priv`
returns exactly the byte sequence of `m` (for every draw of the
encryption-side randomness). -/
theorem claim_C2_encrypt_decrypt_roundtrip (m priv : Bytes) (seed : Nat) :
    decryptMessage (encryptMessage m (PrivateKey.publicKey priv) seed) priv =
      Except.ok m :=
  decryptMessage_encryptMessage m priv seed

/-- **C3**: For every message `m` and private key `priv`,
`verifyMessage (signMessage m priv true true) pub` returns exactly the
byte sequence of `m`, where `pub` is the public key derived from `priv`. -/
theorem claim_C3_sign_verify_roundtrip (m priv : Bytes) :
    verifyMessage (signMessage m priv true true) (PrivateKey.publicKey priv) =
      Except.ok m :=
  verifyMessage_signMessage m priv true

/-- **C1**: For every message `m` and every two independently generated
key pairs, `decryptAndVerifyMessage (signAndEncryptMessage m senderPriv
recipPub) recipPriv senderPub` (with the source's default
`includeSenderPublicKey = true`) returns exactly the original byte
sequence of `m`, for every draw of the encryption-side randomness. -/
theorem claim_C1_sign_encrypt_roundtrip (m senderPriv recipPriv : Bytes) (seed : Nat) :
    decryptAndVerifyMessage
      (signAndEncryptMessageDefaults m senderPriv (PrivateKey.publicKey recipPriv) seed)
      recipPriv (PrivateKey.publicKey senderPriv) = Except.ok m := by
  unfold decryptAndVerifyMessage signAndEncryptMessageDefaults signAndEncryptMessage
  rw [decryptMessage_encryptMessage]
  exact verifyMessage_signMessage m senderPriv true

/-- **C10**: `signMessage`'s inclusion flags default to `false` for both
the message and the sender public key, so for every message `m`, private
key `priv` and any expected public key, verifying a
default-flag-signed envelope always fails with the missing-message
error. -/
theorem claim_C10_default_flags_unverifiable (m priv pub : Bytes) :
    signMessageDefaults m priv = signMessage m priv false false ∧
    verifyMessage (signMessageDefaults m priv) pub = Except.error missingMessageMsg := by
  refine ⟨rfl, ?_⟩
  unfold signMessageDefaults verifyMessage signMessage
  rw [decodeSignedPayload_encode]
  simp

theorem xor_two_pow_ne (a j : Nat) : a ^^^ 2 ^ j ≠ a := by
  intro h
  have h2 : a ^^^ (a ^^^ 2 ^ j) = a ^^^ a := by rw [h]
  rw [← Nat.xor_assoc, Nat.xor_self, Nat.zero_xor] at h2
  exact (Nat.two_pow_pos j).ne' h2

theorem set_getD_xor_ne (l : List Nat) (i j : Nat) (h : i < l.length) :
    l.set i (l.getD i 0 ^^^ 2 ^ j) ≠ l := by
  induction l generalizing i with
  | nil => simp at h
  | cons a t ih =>
    cases i with
    | zero =>
      simp only [List.getD_cons_zero, List.set_cons_zero, ne_eq, List.cons.injEq,
        not_and]
      intro ha
      exact absurd ha (xor_two_pow_ne a j)
    | succ i' =>
      simp only [List.getD_cons_succ, List.set_cons_succ, ne_eq, List.cons.injEq,
        true_and]
      exact ih i' (by simpa using h)

theorem eciesEncrypt_eq (pubEd m : Bytes) (seed : Nat) :
    eciesEncrypt pubEd m seed =
      ⟨sivEncrypt (encKeyOf pubEd seed) (nonceOf seed) m,
       x25519GetPublicKey (ephPrivOf seed), nonceOf seed⟩ := rfl

theorem decryptMessage_encodeEcies (priv : Bytes) (e : EciesPayload) :
    decryptMessage (encodeEciesPayload e) priv = eciesDecrypt priv e.P_e e.N e.C := by
  unfold decryptMessage
  rw [decodeEciesWire_encode]

/-- The key `eciesDecrypt` derives from the matching recipient private key
equals the encryption-side key. -/
theorem decKey_eq_encKey (priv : Bytes) (seed : Nat) :
    deriveAesKey (x25519GetSharedSecret (edwardsToMontgomeryPriv priv)
        (x25519GetPublicKey (ephPrivOf seed))) =
      encKeyOf (PrivateKey.publicKey priv) seed := by
  unfold encKeyOf PrivateKey.publicKey
  rw [sharedSecret_agree]

theorem ephPrivOf_scalar_pos (seed : Nat) : 0 < bytesToNat (ephPrivOf seed) := by
  apply encodeList_pos
  intro h
  have hlen := randomBytes_length 32 (Nat.pair seed 0)
  have h' : randomBytes 32 (Nat.pair seed 0) = [] := h
  rw [h'] at hlen
  simp at hlen

/-- The key `eciesDecrypt` derives from a non-matching recipient private
key differs from the encryption-side key. -/
theorem decKey_ne_encKey (priv privB : Bytes) (seed : Nat) (hne : privB ≠ priv) :
    deriveAesKey (x25519GetSharedSecret (edwardsToMontgomeryPriv privB)
        (x25519GetPublicKey (ephPrivOf seed))) ≠
      encKeyOf (PrivateKey.publicKey priv) seed := by
  intro h
  unfold encKeyOf deriveAesKey at h
  have hss := hkdfSha256_inj_ikm _ _ _ _ _ h
  simp only [x25519GetSharedSecret, edwardsToMontgomeryPriv, x25519GetPublicKey,
    edwardsToMontgomeryPub, PrivateKey.publicKey, ed25519GetPublicKey,
    List.headD_cons, List.cons.injEq, and_true] at hss
  have he := ephPrivOf_scalar_pos seed
  set e := bytesToNat (ephPrivOf seed) with hedef
  set sA := bytesToNat priv with hsadef
  set sB := bytesToNat privB with hsbdef
  have h2 : (xBase * e) * sB = (xBase * e) * sA := by
    rw [hss]
    ring
  have hpos : 0 < xBase * e := by
    have h0 : (0 : Nat) < 2 := by omega
    simpa [xBase] using Nat.mul_pos h0 he
  have : sB = sA := Nat.eq_of_mul_eq_mul_left hpos h2
  exact hne (bytesToNat_injective this)

/-- In the idealised AEAD model, flipping a bit anywhere in the
ciphertext+tag block makes the tag check fail. -/
theorem sivDecrypt_flipBit (key nonce msg : Bytes) (i j : Nat)
    (h : i < (sivEncrypt key nonce msg).length) :
    sivDecrypt key nonce (flipBit (sivEncrypt key nonce msg) i j) = none := by
  cases i with
  | zero =>
    have hE : flipBit (sivEncrypt key nonce msg) 0 j =
        (sivTag key nonce msg ^^^ 2 ^ j) :: msg := by
      simp [flipBit, sivEncrypt]
    rw [hE]
    simp only [sivDecrypt]
    rw [if_neg (xor_two_pow_ne _ j)]
  | succ i' =>
    have hlen : i' < msg.length := by
      have : (sivEncrypt key nonce msg).length = msg.length + 1 := by
        simp [sivEncrypt]
      omega
    have hE : flipBit (sivEncrypt key nonce msg) (i' + 1) j =
        sivTag key nonce msg :: msg.set i' (msg.getD i' 0 ^^^ 2 ^ j) := by
      simp [flipBit, sivEncrypt]
    rw [hE]
    simp only [sivDecrypt]
    rw [if_neg]
    intro heq
    obtain ⟨-, -, hm⟩ := sivTag_inj _ _ _ _ _ _ heq
    exact set_getD_xor_ne msg i' j hlen hm.symm

/-- In the idealised AEAD model, decryption under a different key than the
one that produced the ciphertext fails the tag check. -/
theorem sivDecrypt_wrong_key (key key' nonce msg : Bytes) (hk : key' ≠ key) :
    sivDecrypt key' nonce (sivEncrypt key nonce msg) = none := by
  simp only [sivDecrypt, sivEncrypt]
  rw [if_neg]
  intro heq
  exact hk (sivTag_inj _ _ _ _ _ _ heq).1.symm

/-- **C4**: For every ECIES envelope whose AEAD tag check fails — because
any bit of the ciphertext `C` was flipped, or because the decrypting
private key does not correspond to the public key used for encryption —
`decryptMessage` raises the one authentication-failure error and never
returns any (altered) plaintext; the error does not distinguish which
component was wrong (both cases surface the identical
`authFailureMsg`). -/
theorem claim_C4_auth_failure (m priv : Bytes) (seed : Nat) :
    (∀ i j, i < (eciesEncrypt (PrivateKey.publicKey priv) m seed).C.length →
      decryptMessage
        (encodeEciesPayload
          { C := flipBit (eciesEncrypt (PrivateKey.publicKey priv) m seed).C i j
            P_e := (eciesEncrypt (PrivateKey.publicKey priv) m seed).P_e
            N := (eciesEncrypt (PrivateKey.publicKey priv) m seed).N })
        priv = Except.error authFailureMsg) ∧
    (∀ privB, privB ≠ priv →
      decryptMessage (encryptMessage m (PrivateKey.publicKey priv) seed) privB =
        Except.error authFailureMsg) := by
  constructor
  · intro i j hi
    rw [decryptMessage_encodeEcies]
    rw [eciesEncrypt_eq] at hi ⊢
    dsimp only at hi ⊢
    simp only [eciesDecrypt]
    rw [decKey_eq_encKey, sivDecrypt_flipBit _ _ _ _ _ hi]
  · intro privB hne
    unfold encryptMessage
    rw [decryptMessage_encodeEcies, eciesEncrypt_eq]
    dsimp only
    simp only [eciesDecrypt]
    rw [sivDecrypt_wrong_key _ _ _ _ (decKey_ne_encKey priv privB seed hne)]

/-- Witness: the C4 theorem applied at concrete inputs — flipping bit 0 of
byte 0 of the ciphertext, and decrypting with the wrong private key. -/
theorem claim_C4_auth_failure_witness :
    (0 < (eciesEncrypt (PrivateKey.publicKey []) [5] 0).C.length ∧
      decryptMessage
        (encodeEciesPayload
          { C := flipBit (eciesEncrypt (PrivateKey.publicKey []) [5] 0).C 0 0
            P_e := (eciesEncrypt (PrivateKey.publicKey []) [5] 0).P_e
            N := (eciesEncrypt (PrivateKey.publicKey []) [5] 0).N })
        [] = Except.error authFailureMsg) ∧
    (([1] : Bytes) ≠ [] ∧
      decryptMessage (encryptMessage [5] (PrivateKey.publicKey []) 0) [1] =
        Except.error authFailureMsg) := by
  refine ⟨⟨?_, (claim_C4_auth_failure [5] [] 0).1 0 0 ?_⟩,
    ⟨by decide, (claim_C4_auth_failure [5] [] 0).2 [1] (by decide)⟩⟩ <;>
    · show 0 < (sivEncrypt _ _ [5]).length
      simp [sivEncrypt]

/-! ### KeyId injectivity -/
theorem publicKeyId_eq (p : Bytes) :
    PublicKey.id p =
      String.mk (natToHex (encodeList p) ++ (List.replicate 19 (natToHex 0)).flatten) := by
  simp [PublicKey.id, bytesToHex, ripemd160, List.map_replicate]

theorem publicKeyId_injective : Function.Injective PublicKey.id := by
  intro p q h
  rw [publicKeyId_eq, publicKeyId_eq] at h
  have hdata := congrArg String.data h
  simp only [String.data] at hdata
  have hhex := List.append_cancel_right hdata
  exact encodeList_injective (natToHex_injective hhex)

/-- **C5**: In `verifyMessage`, whenever the decoded payload contains a
public-key field `P`, the KeyId of `P` must equal the KeyId of the
caller-supplied expected public key, and this check happens before the
signature check (part 1 holds for an arbitrary signature field, valid or
not); in particular, for distinct key pairs A and B,
`verifyMessage (signMessage m privA true true) pubB` raises the
key-mismatch error rather than the invalid-signature error. -/
theorem claim_C5_key_mismatch_before_signature :
    (∀ (p : SignedPayload) (pub pb sg : Bytes), p.sig = some sg → p.P = some pb →
      PublicKey.id pb ≠ PublicKey.id pub →
      verifyMessage (encodeSignedPayload p) pub = Except.error keyMismatchMsg) ∧
    (∀ (m privA privB : Bytes), privA ≠ privB →
      verifyMessage (signMessage m privA true true) (PrivateKey.publicKey privB) =
        Except.error keyMismatchMsg) := by
  have part1 : ∀ (p : SignedPayload) (pub pb sg : Bytes), p.sig = some sg →
      p.P = some pb → PublicKey.id pb ≠ PublicKey.id pub →
      verifyMessage (encodeSignedPayload p) pub = Except.error keyMismatchMsg := by
    intro p pub pb sg hsig hP hne
    unfold verifyMessage
    rw [decodeSignedPayload_encode]
    dsimp only
    rw [hsig, hP]
    simp [hne]
  refine ⟨part1, ?_⟩
  intro m privA privB hAB
  have hne : PublicKey.id (PrivateKey.publicKey privA) ≠
      PublicKey.id (PrivateKey.publicKey privB) := by
    intro h
    exact hAB (ed25519GetPublicKey_injective (publicKeyId_injective h))
  exact part1 _ _ _ _ rfl rfl hne

/-- Witness: the C5 theorem applied at concrete inputs — a payload whose
embedded key differs from the expected key, and a cross-key
sign-then-verify. -/
theorem claim_C5_key_mismatch_witness :
    (verifyMessage (encodeSignedPayload ⟨some [0], none, some [2]⟩) [3] =
      Except.error keyMismatchMsg) ∧
    (verifyMessage (signMessage [7] [] true true) (PrivateKey.publicKey [1]) =
      Except.error keyMismatchMsg) :=
  ⟨claim_C5_key_mismatch_before_signature.1 ⟨some [0], none, some [2]⟩ [3] [2] [0]
      rfl rfl
      (fun h => absurd (publicKeyId_injective h) (by decide)),
    claim_C5_key_mismatch_before_signature.2 [7] [] [1] (by decide)⟩

/-- **C6**: For every signed payload in which the message field `m` is
absent, `verifyMessage` fails with an error — it never verifies a
detached signature.  When `m` is present, on success it returns exactly
`m`, and when the signature check fails (with the other checks passing)
it raises the invalid-signature error. -/
theorem claim_C6_message_required :
    (∀ (p : SignedPayload) (pub : Bytes), p.m = none →
      ∀ r, verifyMessage (encodeSignedPayload p) pub ≠ Except.ok r) ∧
    (∀ (p : SignedPayload) (pub mb r : Bytes), p.m = some mb →
      verifyMessage (encodeSignedPayload p) pub = Except.ok r → r = mb) ∧
    (∀ (p : SignedPayload) (pub mb sg : Bytes), p.m = some mb → p.sig = some sg →
      (match p.P with
       | some pb => PublicKey.id pb = PublicKey.id pub
       | none => True) →
      PublicKey.verify pub mb sg = false →
      verifyMessage (encodeSignedPayload p) pub = Except.error invalidSignatureMsg) := by
  refine ⟨?_, ?_, ?_⟩
  · intro p pub hm r
    obtain ⟨psig, pm, pP⟩ := p
    dsimp only at hm
    subst hm
    unfold verifyMessage
    rw [decodeSignedPayload_encode]
    dsimp only
    cases psig with
    | none => simp
    | some sg =>
      dsimp only
      split <;> simp
  · intro p pub mb r hm h
    obtain ⟨psig, pm, pP⟩ := p
    dsimp only at hm
    subst hm
    unfold verifyMessage at h
    rw [decodeSignedPayload_encode] at h
    dsimp only at h
    cases psig with
    | none => simp at h
    | some sg =>
      dsimp only at h
      split at h
      · simp at h
      · split at h
        · injection h with h'
          exact h'.symm
        · simp at h
  · intro p pub mb sg hm hsig hP hver
    obtain ⟨psig, pm, pP⟩ := p
    dsimp only at hm hsig hP
    subst hm
    subst hsig
    unfold verifyMessage
    rw [decodeSignedPayload_encode]
    dsimp only
    cases pP with
    | none => simp [hver]
    | some pb =>
      dsimp only at hP
      simp [hP, hver]

/-- Witness: the C6 theorem applied at concrete inputs — a payload with
`m` absent never verifies; a verified payload returns its `m`; a payload
with an invalid signature raises the invalid-signature error. -/
theorem claim_C6_message_required_witness :
    (verifyMessage (encodeSignedPayload ⟨some [0], none, none⟩) [1] ≠ Except.ok [9]) ∧
    (([7] : Bytes) = [7]) ∧
    (verifyMessage (encodeSignedPayload ⟨some [0], some [7], none⟩) [1] =
      Except.error invalidSignatureMsg) :=
  ⟨claim_C6_message_required.1 ⟨some [0], none, none⟩ [1] rfl [9],
    claim_C6_message_required.2.1 ⟨some (ed25519Sign [7] [2]), some [7], none⟩
      (PrivateKey.publicKey [2]) [7] [7] rfl (verifyMessage_signMessage [7] [2] false),
    claim_C6_message_required.2.2 ⟨some [0], some [7], none⟩ [1] [7] [0] rfl rfl
      trivial rfl⟩

/-- **C7**: Every call of ECIES encryption generates a fresh ephemeral
key-agreement key pair and a fresh 12-byte random nonce (both drawn from
the random source of this very call, and distinct across calls with
distinct randomness), derives the 32-byte symmetric key by a keyed
derivation over the raw shared secret with the fixed implementation
context label and no salt, and returns an envelope in which all three
fields `C` (ciphertext+tag), `P_e` (ephemeral public key) and `N`
(nonce) are present. -/
theorem claim_C7_encrypt_structure (pubEd m : Bytes) (seed : Nat) :
    decodeEciesWire (encryptMessage m pubEd seed) =
      some (some (eciesEncrypt pubEd m seed).C, some (eciesEncrypt pubEd m seed).P_e,
        some (eciesEncrypt pubEd m seed).N) ∧
    (eciesEncrypt pubEd m seed).P_e = x25519GetPublicKey (ephPrivOf seed) ∧
    (eciesEncrypt pubEd m seed).N = randomBytes 12 (Nat.pair seed 1) ∧
    (eciesEncrypt pubEd m seed).N.length = 12 ∧
    (eciesEncrypt pubEd m seed).C =
      sivEncrypt (encKeyOf pubEd seed) (eciesEncrypt pubEd m seed).N m ∧
    encKeyOf pubEd seed =
      hkdfSha256 (x25519GetSharedSecret (ephPrivOf seed) (edwardsToMontgomeryPub pubEd))
        none aesKeyInfo 32 ∧
    (∀ ss, deriveAesKey ss = hkdfSha256 ss none aesKeyInfo 32) ∧
    (∀ ss, (deriveAesKey ss).length = 32) ∧
    (∀ seed', seed' ≠ seed →
      (eciesEncrypt pubEd m seed').N ≠ (eciesEncrypt pubEd m seed).N ∧
      ephPrivOf seed' ≠ ephPrivOf seed) := by
  refine ⟨?_, rfl, rfl, randomBytes_length 12 _, rfl, rfl, fun ss => rfl,
    fun ss => hkdfSha256_length _ _ _ 32 (by omega), ?_⟩
  · unfold encryptMessage
    exact decodeEciesWire_encode _
  · intro seed' hs
    have hpair1 : Nat.pair seed' 1 ≠ Nat.pair seed 1 := by
      intro h
      exact hs (Nat.pair_eq_pair.mp h).1
    have hpair0 : Nat.pair seed' 0 ≠ Nat.pair seed 0 := by
      intro h
      exact hs (Nat.pair_eq_pair.mp h).1
    exact ⟨randomBytes_ne 12 _ _ (by omega) hpair1,
      randomBytes_ne 32 _ _ (by omega) hpair0⟩

/-- Witness: the C7 theorem applied at concrete inputs, with distinct
randomness on the two calls. -/
theorem claim_C7_encrypt_structure_witness :
    (eciesEncrypt [3] [5] 1).N ≠ (eciesEncrypt [3] [5] 0).N ∧
    ephPrivOf 1 ≠ ephPrivOf 0 :=
  (claim_C7_encrypt_structure [3] [5] 0).2.2.2.2.2.2.2.2 1 (by decide)

/-- **C8**: For every public key, its KeyId is the lowercase hexadecimal
rendering of a fixed-width 20-byte hash of the public key encoding (every
character of the rendering lies in the lowercase hex alphabet), and the
same public key bytes always yield the same KeyId. -/
theorem claim_C8_keyid_shape (pub : Bytes) :
    PublicKey.id pub = bytesToHex (ripemd160 pub) ∧
    (ripemd160 pub).length = 20 ∧
    (∀ c ∈ (PublicKey.id pub).data, c ∈ hexDigitChars) ∧
    (∀ pub', pub = pub' → PublicKey.id pub = PublicKey.id pub') := by
  refine ⟨rfl, ripemd160_length pub, ?_, fun pub' h => by rw [h]⟩
  intro c hc
  simp only [PublicKey.id, bytesToHex, String.data] at hc
  rw [List.mem_flatten] at hc
  obtain ⟨l, hl, hcl⟩ := hc
  rw [List.mem_map] at hl
  obtain ⟨n, -, rfl⟩ := hl
  exact natToHex_subset n c hcl

/-- Witness: the C8 theorem applied at a concrete public key. -/
theorem claim_C8_keyid_shape_witness :
    ('5' ∈ hexDigitChars) ∧ PublicKey.id [1] = PublicKey.id [1] :=
  ⟨(claim_C8_keyid_shape [1]).2.2.1 '5' (by decide),
    (claim_C8_keyid_shape [1]).2.2.2 [1] rfl⟩

/-- **C9**: Every error arising inside the public operations is surfaced
to the immediate caller as an error with a distinguishable kind (the
error kinds are pairwise distinct), and no error is converted into a
non-error result: `verifyMessage` succeeds only when decoding, the
optional key check and the signature check all passed, `decryptMessage`
succeeds only when decoding, validation and the AEAD tag check all
passed, and an exception thrown by the underlying signature-verification
primitive surfaces to the caller as the invalid-signature error rather
than a success. -/
theorem claim_C9_error_propagation :
    ([decodeFailureMsg, missingSigMsg, keyMismatchMsg, missingMessageMsg,
      invalidSignatureMsg, invalidEciesMsg, authFailureMsg] : List String).Nodup ∧
    (∀ bs pub r, verifyMessage bs pub = Except.ok r →
      ∃ p sg, decodeSignedPayload bs = some p ∧ p.sig = some sg ∧ p.m = some r ∧
        PublicKey.verify pub r sg = true) ∧
    (∀ (p : SignedPayload) (pub mb sg : Bytes) (e : String), p.sig = some sg →
      p.m = some mb → p.P = none → ed25519Verify sg mb pub = Except.error e →
      verifyMessage (encodeSignedPayload p) pub = Except.error invalidSignatureMsg) ∧
    (∀ bs priv r, decryptMessage bs priv = Except.ok r →
      ∃ c pe n, decodeEciesWire bs = some (some c, some pe, some n) ∧
        sivDecrypt (deriveAesKey (x25519GetSharedSecret (edwardsToMontgomeryPriv priv) pe))
          n c = some r) := by
  refine ⟨by decide, ?_, ?_, ?_⟩
  · intro bs pub r h
    unfold verifyMessage at h
    cases hdec : decodeSignedPayload bs with
    | none => rw [hdec] at h; simp at h
    | some p =>
      rw [hdec] at h
      obtain ⟨psig, pm, pP⟩ := p
      dsimp only at h
      cases psig with
      | none => simp at h
      | some sg =>
        dsimp only at h
        split at h
        · simp at h
        · cases pm with
          | none => simp at h
          | some mv =>
            dsimp only at h
            split at h
            · rename_i hv
              injection h with h'
              subst h'
              exact ⟨⟨some sg, some mv, pP⟩, sg, rfl, rfl, rfl, hv⟩
            · simp at h
  · intro p pub mb sg e hsig hm hP hEx
    obtain ⟨psig, pm, pP⟩ := p
    dsimp only at hsig hm hP
    subst hsig
    subst hm
    subst hP
    have hver : PublicKey.verify pub mb sg = false := by
      unfold PublicKey.verify
      rw [hEx]
    unfold verifyMessage
    rw [decodeSignedPayload_encode]
    dsimp only
    simp [hver]
  · intro bs priv r h
    unfold decryptMessage at h
    cases hdec : decodeEciesWire bs with
    | none => rw [hdec] at h; simp at h
    | some trip =>
      rw [hdec] at h
      obtain ⟨oc, ope, onn⟩ := trip
      dsimp only at h
      cases oc with
      | none => simp at h
      | some c =>
        cases ope with
        | none => simp at h
        | some pe =>
          cases onn with
          | none => simp at h
          | some n =>
            dsimp only at h
            refine ⟨c, pe, n, rfl, ?_⟩
            simp only [eciesDecrypt] at h
            cases hsiv : sivDecrypt
                (deriveAesKey (x25519GetSharedSecret (edwardsToMontgomeryPriv priv) pe))
                n c with
            | none => rw [hsiv] at h; simp at h
            | some pt =>
              rw [hsiv] at h
              dsimp only at h
              injection h with h'
              rw [h']

/-- Witness: the C9 theorem applied at concrete inputs — a primitive
verification exception surfacing as the invalid-signature error, a
successful verification with all checks passed, and a successful
decryption with the tag check passed. -/
theorem claim_C9_error_propagation_witness :
    (verifyMessage (encodeSignedPayload ⟨some [0], some [8], none⟩) [1] =
      Except.error invalidSignatureMsg) ∧
    (∃ p sg, decodeSignedPayload (signMessage [7] [2] true false) = some p ∧
      p.sig = some sg ∧ p.m = some [7] ∧
      PublicKey.verify (PrivateKey.publicKey [2]) [7] sg = true) ∧
    (∃ c pe n,
      decodeEciesWire (encryptMessage [5] (PrivateKey.publicKey [2]) 0) =
        some (some c, some pe, some n) ∧
      sivDecrypt (deriveAesKey (x25519GetSharedSecret (edwardsToMontgomeryPriv [2]) pe))
        n c = some [5]) :=
  ⟨claim_C9_error_propagation.2.2.1 ⟨some [0], some [8], none⟩ [1] [8] [0]
      "invalid signature format" rfl rfl rfl rfl,
    claim_C9_error_propagation.2.1 (signMessage [7] [2] true false)
      (PrivateKey.publicKey [2]) [7] (verifyMessage_signMessage [7] [2] false),
    claim_C9_error_propagation.2.2.2 (encryptMessage [5] (PrivateKey.publicKey [2]) 0)
      [2] [5] (decryptMessage_encryptMessage [5] [2] 0)⟩

end Suite25519
